import Mathlib

/-!
Verification of the pixelcanvas application core (src/pixelcanvas.py):
the grid data model, the flood-fill algorithm (`fill_area`), single-cell
painting (`draw_pixel`), the image-preload bookkeeping
(`preload_image_from_url`, `handle_preload_error`) and the JSON
persistence layer (`save_canvas` and the validation/commit step of
`load_canvas`).

The grid is `grid_data`, a ROWS x COLS nested list; a well-formed cell is
the dictionary `\x7b'mode': m, 'val': v\x7d`, modelled by the structure `Cell`.
After a load the grid may in principle hold arbitrary parsed JSON values,
modelled by `JVal`.  The flood fill is a fueled breadth-first search; the
fuel `ROWS * COLS` is shown sufficient (the frontier empties before the
fuel runs out, see the termination theorem for claim C7).
-/

namespace PixelCanvas

/-- Canvas pixel size, configuration constant of the source. -/
def CANVAS_SIZE : Nat := 400

/-- Cell pixel size, configuration constant of the source. -/
def CELL_SIZE : Nat := 20

/-- Number of grid columns, `CANVAS_SIZE // CELL_SIZE`. -/
def COLS : Nat := CANVAS_SIZE / CELL_SIZE

/-- Number of grid rows, `CANVAS_SIZE // CELL_SIZE`. -/
def ROWS : Nat := CANVAS_SIZE / CELL_SIZE

/-- One well-formed grid cell: the dictionary stored at grid_data[r][c]. -/
structure Cell where
  mode : String
  val : String
deriving DecidableEq

instance : Inhabited Cell := ⟨⟨"color", "#ffffff"⟩⟩

/-- Default background cell, the dictionary with mode color and value white. -/
def defaultCell : Cell := ⟨"color", "#ffffff"⟩

/-- A grid is a nested list, as grid_data is in the source. -/
abbrev Grid (α : Type) := List (List α)

/-- A cell position, a (row, column) pair of natural numbers. -/
abbrev Pos := Nat × Nat

/-- Reading grid_data[r][c] (always used in-bounds by the source). -/
def getCell {α : Type} [Inhabited α] (g : Grid α) (r c : Nat) : α :=
  (g.getD r []).getD c default

/-- Writing grid_data[r][c] = x (always used in-bounds by the source). -/
def setCell {α : Type} (g : Grid α) (r c : Nat) (x : α) : Grid α :=
  g.set r ((g.getD r []).set c x)

/-- The grid shape invariant: exactly ROWS rows of exactly COLS entries each. -/
def wfGrid {α : Type} (g : Grid α) : Prop :=
  g.length = ROWS ∧ ∀ row ∈ g, row.length = COLS

instance {α : Type} (g : Grid α) : Decidable (wfGrid g) := by
  unfold wfGrid
  infer_instance

/-- The current_image_info dictionary: \x7b'type': ..., 'val': ...\x7d. -/
structure ImageInfo where
  type : String
  val : String
deriving DecidableEq

/-- Brush-content selection shared by draw_pixel and fill_area: the
if/elif cascade on current_mode, current_color and current_image_info.
Returns none when no branch applies (image mode with no image selected,
or any other mode string). -/
def brushContent (mode color : String) (info : Option ImageInfo) : Option Cell :=
  if mode = "color" then some ⟨"color", color⟩
  else if mode = "image" then
    match info with
    | some i => some ⟨i.type, i.val⟩
    | none => none
  else if mode = "erase" then some ⟨"color", "#ffffff"⟩
  else none

/-- The draw_pixel method.  Writes the brush content at (row, col) when a
branch of the mode cascade applies and otherwise leaves the grid alone.
The second component is the status-bar update performed by the method:
draw_pixel never calls update_status, so it is always `none`. -/
def draw_pixel (mode color : String) (info : Option ImageInfo)
    (g : Grid Cell) (r c : Nat) : Grid Cell × Option String :=
  match brushContent mode color info with
  | some cell => (setCell g r c cell, none)
  | none => (g, none)

/-- In-bounds predicate for a position: `0 <= r < ROWS and 0 <= c < COLS`. -/
def inB (p : Pos) : Prop := p.1 < ROWS ∧ p.2 < COLS

instance (p : Pos) : Decidable (inB p) := by unfold inB; infer_instance

/-- Orthogonal (4-connected) adjacency of two positions. -/
def adj (p q : Pos) : Prop :=
  (p.1 = q.1 ∧ (q.2 = p.2 + 1 ∨ p.2 = q.2 + 1)) ∨
  (p.2 = q.2 ∧ (q.1 = p.1 + 1 ∨ p.1 = q.1 + 1))

instance (p q : Pos) : Decidable (adj p q) := by unfold adj; infer_instance

/-- The four neighbor offsets of the fill loop, in source order:
(0, 1), (0, -1), (1, 0), (-1, 0). -/
def deltas : List (Int × Int) := [(0, 1), (0, -1), (1, 0), (-1, 0)]

/-- Neighbor position `(row + d_row, col + d_col)` as integers. -/
def nbr (p : Pos) (d : Int × Int) : Int × Int :=
  ((p.1 : Int) + d.1, (p.2 : Int) + d.2)

/-- One neighbor check of the fill loop body: if the neighbor is in
bounds and its current content equals the target, it is overwritten with
the replacement and appended to the queue. -/
def tryWrite {α : Type} [Inhabited α] [DecidableEq α] (t n : α)
    (st : Grid α × List Pos) (q : Int × Int) : Grid α × List Pos :=
  if 0 ≤ q.1 ∧ q.1 < (ROWS : Int) ∧ 0 ≤ q.2 ∧ q.2 < (COLS : Int) ∧
      getCell st.1 q.1.toNat q.2.toNat = t then
    (setCell st.1 q.1.toNat q.2.toNat n, st.2 ++ [(q.1.toNat, q.2.toNat)])
  else st

/-- Processing one dequeued cell: examine its four neighbors in source
order, writing and enqueueing the eligible ones. -/
def processCell {α : Type} [Inhabited α] [DecidableEq α]
    (g : Grid α) (t n : α) (p : Pos) : Grid α × List Pos :=
  (deltas.map (nbr p)).foldl (tryWrite t n) (g, [])

/-- The `while q:` loop of fill_area as a fueled recursion; each step
dequeues from the front (popleft) and appends new cells at the back.
Returns the final grid together with the residual queue (which is shown
to be empty when the fuel is at least ROWS * COLS). -/
def fillLoop {α : Type} [Inhabited α] [DecidableEq α] (t n : α) :
    Nat → Grid α → List Pos → Grid α × List Pos
  | 0, g, q => (g, q)
  | _ + 1, g, [] => (g, [])
  | fuel + 1, g, p :: rest =>
    let pr := processCell g t n p
    fillLoop t n fuel pr.1 (rest ++ pr.2)

/-- The fill_area method.  Reads the target cell, selects the brush
content (error status and no change when none applies), returns
unchanged on a self-fill (target equal to replacement, with no status
update), and otherwise writes the start cell and runs the BFS loop.
The second component is the status-bar update performed by the method. -/
def fill_area (mode color : String) (info : Option ImageInfo)
    (g : Grid Cell) (sr sc : Nat) : Grid Cell × Option String :=
  let target := getCell g sr sc
  match brushContent mode color info with
  | none => (g, some "Error: Select a brush (color/image) before using the fill tool.")
  | some newContent =>
    if target = newContent then (g, none)
    else
      ((fillLoop target newContent (ROWS * COLS)
          (setCell g sr sc newContent) [(sr, sc)]).1,
       some "Fill operation complete!")

/-- Reachability through chains of orthogonal neighbors whose content in
grid `g` equals the target `t`, starting from `s`.  The claims describe
the flood-fill region as exactly this set. -/
inductive Reach {α : Type} [Inhabited α] (g : Grid α) (t : α) (s : Pos) : Pos → Prop
  | base : Reach g t s s
  | step {p q : Pos} : Reach g t s p → adj p q → inB q →
      getCell g q.1 q.2 = t → Reach g t s q

/-- Number of in-bounds positions currently holding the target content;
the decreasing measure of the BFS. -/
def countTarget {α : Type} [DecidableEq α] (g : Grid α) (t : α) : Nat :=
  (g.map (fun row => row.countP (fun x => decide (x = t)))).sum

/-- The initial grid of the application: ROWS x COLS all-white cells. -/
def initGrid : Grid Cell := List.replicate ROWS (List.replicate COLS defaultCell)

/-- The clear_canvas reset grid: ROWS x COLS all-white cells. -/
def clear_canvas : Grid Cell := List.replicate ROWS (List.replicate COLS defaultCell)

/-- Asset-cache and grid state touched by the preload machinery:
grid_data, the key set of cell_images (decoded-image entries, keyed by
(mode, value) pairs) and the key set of loading_images (in-flight URLs). -/
structure CacheState where
  grid : Grid Cell
  cell_images : List (String × String)
  loading_images : List String
deriving DecidableEq

/-- The synchronous part of preload_image_from_url: return immediately
when the URL is already in loading_images, otherwise mark it in-flight
and submit a worker fetch.  The boolean records whether a fetch was
dispatched to the executor. -/
def preload_image_from_url (st : CacheState) (url : String) : CacheState × Bool :=
  if url ∈ st.loading_images then (st, false)
  else ({ st with loading_images := url :: st.loading_images }, true)

/-- N successive request calls for the same URL with no intervening
resolution; the second component counts the dispatched fetches. -/
def requestN : Nat → CacheState → String → CacheState × Nat
  | 0, st, _ => (st, 0)
  | k + 1, st, u =>
    let pr := preload_image_from_url st u
    let rest := requestN k pr.1 u
    (rest.1, (if pr.2 then 1 else 0) + rest.2)

/-- The handle_preload_error method: drop the failing URL from
loading_images, then rewrite every grid cell with mode image_url and the
failing URL back to the default white color cell.  cell_images is not
touched (no cache entry is created or removed by the failure path). -/
def handle_preload_error (st : CacheState) (url : String) : CacheState :=
  { grid := st.grid.map (fun row => row.map (fun cell =>
      if cell.mode = "image_url" ∧ cell.val = url then defaultCell else cell)),
    cell_images := st.cell_images,
    loading_images := st.loading_images.filter (fun u => u ≠ url) }

/-- Parsed JSON values, the possible results of json.load: after the
dimension check the source commits the parsed value as grid_data without
inspecting the individual entries. -/
inductive JVal where
  | null : JVal
  | bool (b : Bool) : JVal
  | num (n : Int) : JVal
  | str (s : String) : JVal
  | arr (xs : List JVal) : JVal
  | obj (fields : List (String × JVal)) : JVal

/-- JSON form of a well-formed cell dictionary. -/
def cellToJ (c : Cell) : JVal := .obj [("mode", .str c.mode), ("val", .str c.val)]

/-- The save_canvas serialization: json.dump of grid_data, the row-major
nested array of \x7bmode, val\x7d records.  JSON serialization of this tree is
lossless, so it is modelled as the identity on the JSON tree. -/
def save_canvas (g : Grid Cell) : Grid JVal :=
  g.map (fun row => row.map cellToJ)

/-- The dimension validation of load_canvas:
`len(new_grid_data) == ROWS and all rows have len == COLS`
(the source raises ValueError on the negation). -/
def load_dims_ok (parsed : Grid JVal) : Bool :=
  parsed.length == ROWS && parsed.all (fun row => row.length == COLS)

/-- The grid-commit step of load_canvas: on passed validation the parsed
structure becomes grid_data (before any per-cell inspection); on failed
validation the ValueError aborts the load and grid_data is untouched. -/
def load_commit (prev parsed : Grid JVal) : Grid JVal :=
  if load_dims_ok parsed then parsed else prev

/-- Whether a parsed JSON value is a well-formed \x7bmode, val\x7d cell record
in the sense of the data model (mode one of the three known strings,
value a string). -/
def isCellRecord (v : JVal) : Bool :=
  match v with
  | .obj [("mode", .str m), ("val", .str _)] =>
    m == "color" || m == "image_url" || m == "image_local"
  | _ => false

/-- Every entry of a parsed grid is a well-formed cell record. -/
def cellsWF (g : Grid JVal) : Prop :=
  ∀ row ∈ g, ∀ v ∈ row, isCellRecord v = true

/-- A dimensionally valid parsed structure whose entries are objects with
a mode key only: in the source this input passes the dimension check, is
committed as grid_data, triggers no preload (its mode is none of the
image modes) and draws nothing on redraw, so the load reports success
while grid_data holds entries that are not well-formed cell records. -/
def badParsed : Grid JVal :=
  List.replicate ROWS (List.replicate COLS (JVal.obj [("mode", JVal.str "foo")]))

/-- Full functional specification of one fill_area run with replacement
`newContent`: the fill rewrites exactly the cells reachable from the
start through chains of orthogonal neighbors holding the original target
content and leaves every other cell unchanged; consequently an
all-identical grid is rewritten entirely, and a second target cell
touching the start region only diagonally is left unchanged. -/
def FillSpec (g : Grid Cell) (mode color : String) (info : Option ImageInfo)
    (sr sc : Nat) (newContent : Cell) : Prop :=
  (∀ r c, r < ROWS → c < COLS →
      (Reach g (getCell g sr sc) (sr, sc) (r, c) →
        getCell (fill_area mode color info g sr sc).1 r c = newContent) ∧
      (¬ Reach g (getCell g sr sc) (sr, sc) (r, c) →
        getCell (fill_area mode color info g sr sc).1 r c = getCell g r c)) ∧
  ((∀ r c, r < ROWS → c < COLS → getCell g r c = getCell g sr sc) →
    ∀ r c, r < ROWS → c < COLS →
      getCell (fill_area mode color info g sr sc).1 r c = newContent) ∧
  (∀ dr dc, dr < ROWS → dc < COLS →
    (dr = sr + 1 ∨ sr = dr + 1) → (dc = sc + 1 ∨ sc = dc + 1) →
    getCell g dr dc = getCell g sr sc →
    (∀ r c, r < ROWS → c < COLS → getCell g r c = getCell g sr sc →
      (r, c) = (sr, sc) ∨ (r, c) = (dr, dc)) →
    getCell (fill_area mode color info g sr sc).1 dr dc = getCell g sr sc)

/-- Invariant of the BFS loop of fill_area, relating the working grid
`g` and queue `q` to the pre-fill grid `g0`, target `t`, replacement `n`
and start `s`: the grid is well-formed; every cell differs from `g0`
only where it has been overwritten with `n`, and then its original
content was `t` and it is reachable; queued cells are in-bounds, already
overwritten and reachable; every overwritten cell is either still queued
or has no remaining neighbor whose current content is `t`; and the start
cell has been overwritten. -/
def FillInv {α : Type} [Inhabited α] [DecidableEq α] (g0 : Grid α) (t n : α) (s : Pos)
    (g : Grid α) (q : List Pos) : Prop :=
  wfGrid g ∧
  (∀ r c, r < ROWS → c < COLS →
    getCell g r c = getCell g0 r c ∨
    (getCell g r c = n ∧ getCell g0 r c = t ∧ Reach g0 t s (r, c))) ∧
  (∀ x ∈ q, inB x ∧ getCell g x.1 x.2 = n ∧ Reach g0 t s x) ∧
  (∀ r c, r < ROWS → c < COLS → getCell g r c ≠ getCell g0 r c →
    ((r, c) ∈ q ∨ ∀ y, adj (r, c) y → inB y → getCell g y.1 y.2 ≠ t)) ∧
  getCell g s.1 s.2 = n

/-! Basic list and grid lemmas. -/

theorem getD_set_self {β : Type} (l : List β) (i : Nat) (x d : β) (h : i < l.length) :
    (l.set i x).getD i d = x := by
  induction l generalizing i with
  | nil => simp at h
  | cons a l ih =>
    cases i with
    | zero => simp
    | succ k => simpa using ih k (by simpa using h)

theorem getD_set_ne {β : Type} (l : List β) (i j : Nat) (x d : β) (h : i ≠ j) :
    (l.set i x).getD j d = l.getD j d := by
  induction l generalizing i j with
  | nil => simp
  | cons a l ih =>
    cases i with
    | zero =>
      cases j with
      | zero => exact absurd rfl h
      | succ m => simp
    | succ k =>
      cases j with
      | zero => simp
      | succ m => simpa using ih k m (by omega)

theorem getD_mem {β : Type} (l : List β) (i : Nat) (d : β) (h : i < l.length) :
    l.getD i d ∈ l := by
  rw [List.getD_eq_getElem l d h]
  exact List.getElem_mem h

theorem getCell_setCell_self {α : Type} [Inhabited α] (g : Grid α) (r c : Nat) (x : α)
    (hw : wfGrid g) (hr : r < ROWS) (hc : c < COLS) :
    getCell (setCell g r c x) r c = x := by
  unfold getCell setCell
  have hrl : r < g.length := by rw [hw.1]; exact hr
  rw [getD_set_self _ _ _ _ hrl]
  have hrow : (g.getD r []).length = COLS := hw.2 _ (getD_mem g r [] hrl)
  exact getD_set_self _ _ _ _ (by rw [hrow]; exact hc)

theorem getCell_setCell_ne {α : Type} [Inhabited α] (g : Grid α) (r c r' c' : Nat) (x : α)
    (h : (r', c') ≠ (r, c)) :
    getCell (setCell g r c x) r' c' = getCell g r' c' := by
  unfold getCell setCell
  by_cases hr : r = r'
  · subst hr
    have hc : c ≠ c' := by
      intro hc
      exact h (by rw [hc])
    by_cases hrl : r < g.length
    · rw [getD_set_self _ _ _ _ hrl, getD_set_ne _ _ _ _ _ hc]
    · have h1 : (g.set r ((g.getD r []).set c x)).length ≤ r := by
        rw [List.length_set]; omega
      have h2 : g.getD r ([] : List α) = [] := List.getD_eq_default _ _ (by omega)
      rw [List.getD_eq_default _ _ h1, h2]
  · rw [getD_set_ne _ _ _ _ _ hr]

theorem wfGrid_setCell {α : Type} (g : Grid α) (r c : Nat) (x : α)
    (hw : wfGrid g) (hr : r < ROWS) :
    wfGrid (setCell g r c x) := by
  constructor
  · rw [setCell, List.length_set]; exact hw.1
  · intro row hrow
    rcases List.mem_or_eq_of_mem_set hrow with h | h
    · exact hw.2 _ h
    · subst h
      rw [List.length_set]
      exact hw.2 _ (getD_mem g r [] (by rw [hw.1]; exact hr))

theorem getCell_map {α β : Type} [Inhabited α] [Inhabited β] (f : α → β) (g : Grid α)
    (r c : Nat) (hw : wfGrid g) (hr : r < ROWS) (hc : c < COLS) :
    getCell (g.map (fun row => row.map f)) r c = f (getCell g r c) := by
  unfold getCell
  have hrl : r < g.length := by rw [hw.1]; exact hr
  have hrl2 : r < (g.map (fun row => row.map f)).length := by
    rw [List.length_map]; exact hrl
  rw [List.getD_eq_getElem _ _ hrl2, List.getElem_map, List.getD_eq_getElem _ _ hrl]
  have hcl : c < g[r].length := by
    rw [hw.2 _ (List.getElem_mem hrl)]; exact hc
  have hcl2 : c < (g[r].map f).length := by rw [List.length_map]; exact hcl
  rw [List.getD_eq_getElem _ _ hcl2, List.getElem_map, List.getD_eq_getElem _ _ hcl]

theorem wfGrid_map {α β : Type} (f : α → β) (g : Grid α) (hw : wfGrid g) :
    wfGrid (g.map (fun row => row.map f)) := by
  constructor
  · rw [List.length_map]; exact hw.1
  · intro row hrow
    rcases List.mem_map.mp hrow with ⟨row0, h0, hrow0⟩
    rw [← hrow0, List.length_map]
    exact hw.2 _ h0

/-! Counting lemmas for the flood-fill measure. -/

theorem countP_set_lt {α : Type} [DecidableEq α] :
    ∀ (l : List α) (c : Nat) (x t d : α), c < l.length → l.getD c d = t → x ≠ t →
      (l.set c x).countP (fun y => decide (y = t)) + 1 ≤
        l.countP (fun y => decide (y = t)) := by
  intro l
  induction l with
  | nil => intro c x t d h; simp at h
  | cons a l ih =>
    intro c x t d hc hget hx
    cases c with
    | zero =>
      simp only [List.getD_cons_zero] at hget
      subst hget
      simp [List.countP_cons, hx]
    | succ k =>
      simp only [List.getD_cons_succ] at hget
      have := ih k x t d (by simpa using hc) hget hx
      simp only [List.set_cons_succ, List.countP_cons]
      omega

theorem countP_lt_of_ne {α : Type} [DecidableEq α] :
    ∀ (l : List α) (c : Nat) (t d : α), c < l.length → l.getD c d ≠ t →
      l.countP (fun y => decide (y = t)) + 1 ≤ l.length := by
  intro l
  induction l with
  | nil => intro c t d h; simp at h
  | cons a l ih =>
    intro c t d hc hget
    cases c with
    | zero =>
      simp only [List.getD_cons_zero] at hget
      have h1 : l.countP (fun y => decide (y = t)) ≤ l.length := List.countP_le_length _
      simp [List.countP_cons, hget]
      omega
    | succ k =>
      simp only [List.getD_cons_succ] at hget
      have h1 := ih k t d (by simpa using hc) hget
      simp only [List.countP_cons, List.length_cons]
      have h2 : (if decide (a = t) = true then 1 else 0) ≤ 1 := by split <;> omega
      omega

theorem sum_map_set {β : Type} (f : List β → Nat) :
    ∀ (g : List (List β)) (r : Nat) (row : List β), r < g.length →
      ((g.set r row).map f).sum + f (g.getD r []) = (g.map f).sum + f row := by
  intro g
  induction g with
  | nil => intro r row h; simp at h
  | cons a g ih =>
    intro r row hr
    cases r with
    | zero => simp; omega
    | succ k =>
      have := ih k row (by simpa using hr)
      simp only [List.set_cons_succ, List.map_cons, List.sum_cons, List.getD_cons_succ]
      omega

theorem countTarget_setCell {α : Type} [Inhabited α] [DecidableEq α]
    (g : Grid α) (r c : Nat) (x t : α)
    (hw : wfGrid g) (hr : r < ROWS) (hc : c < COLS)
    (hcell : getCell g r c = t) (hx : x ≠ t) :
    countTarget (setCell g r c x) t + 1 ≤ countTarget g t := by
  unfold countTarget setCell
  have hrl : r < g.length := by rw [hw.1]; exact hr
  have hsum := sum_map_set (fun row => row.countP (fun y => decide (y = t))) g r
    ((g.getD r []).set c x) hrl
  have hrow : (g.getD r []).length = COLS := hw.2 _ (getD_mem g r [] hrl)
  unfold getCell at hcell
  have hlt := countP_set_lt (g.getD r []) c x t default (by rw [hrow]; exact hc) hcell hx
  simp only [] at hsum
  omega

theorem sum_le_mul {β : Type} (f : List β → Nat) (B : Nat) :
    ∀ g : List (List β), (∀ row ∈ g, f row ≤ B) → (g.map f).sum ≤ g.length * B := by
  intro g
  induction g with
  | nil => intro _; simp
  | cons a g ih =>
    intro h
    simp only [List.map_cons, List.sum_cons, List.length_cons]
    have h1 := h a (by simp)
    have h2 := ih (fun row hrow => h row (by simp [hrow]))
    calc f a + (g.map f).sum ≤ B + g.length * B := by omega
    _ = (g.length + 1) * B := by ring

theorem sum_lt_of_entry {β : Type} (f : List β → Nat) (B : Nat) :
    ∀ (g : List (List β)) (r : Nat), r < g.length → (∀ row ∈ g, f row ≤ B) →
      f (g.getD r []) + 1 ≤ B → (g.map f).sum + 1 ≤ g.length * B := by
  intro g
  induction g with
  | nil => intro r h; simp at h
  | cons a g ih =>
    intro r hr hall hone
    simp only [List.map_cons, List.sum_cons, List.length_cons]
    have hmul : (g.length + 1) * B = g.length * B + B := by ring
    cases r with
    | zero =>
      simp only [List.getD_cons_zero] at hone
      have h2 := sum_le_mul f B g (fun row hrow => hall row (by simp [hrow]))
      omega
    | succ k =>
      simp only [List.getD_cons_succ] at hone
      have h2 := ih k (by simpa using hr) (fun row hrow => hall row (by simp [hrow])) hone
      have h1 := hall a (by simp)
      omega

theorem countTarget_bound {α : Type} [Inhabited α] [DecidableEq α]
    (g : Grid α) (r c : Nat) (t : α)
    (hw : wfGrid g) (hr : r < ROWS) (hc : c < COLS)
    (hne : getCell g r c ≠ t) :
    countTarget g t + 1 ≤ ROWS * COLS := by
  unfold countTarget
  have hrl : r < g.length := by rw [hw.1]; exact hr
  have hrow : (g.getD r []).length = COLS := hw.2 _ (getD_mem g r [] hrl)
  unfold getCell at hne
  have hone : (g.getD r []).countP (fun y => decide (y = t)) + 1 ≤ COLS := by
    have := countP_lt_of_ne (g.getD r []) c t default (by rw [hrow]; exact hc) hne
    omega
  have hall : ∀ row ∈ g, row.countP (fun y => decide (y = t)) ≤ COLS := by
    intro row hmem
    have := List.countP_le_length (l := row) (p := fun y => decide (y = t))
    rw [hw.2 _ hmem] at this
    exact this
  have := sum_lt_of_entry (fun row => row.countP (fun y => decide (y = t))) COLS g r
    hrl hall hone
  simp only [] at this
  rw [hw.1] at this
  exact this

/-! Persistence lemmas. -/

theorem load_dims_ok_iff (parsed : Grid JVal) :
    load_dims_ok parsed = true ↔
      (parsed.length = ROWS ∧ ∀ row ∈ parsed, row.length = COLS) := by
  unfold load_dims_ok
  simp [List.all_eq_true]

theorem cellToJ_inj : Function.Injective cellToJ := by
  intro a b h
  unfold cellToJ at h
  cases a
  cases b
  simp only [JVal.obj.injEq, List.cons.injEq, Prod.mk.injEq, JVal.str.injEq] at h
  simp [h.1.2, h.2.1.2]

/-- C2: fill with replacement structurally equal to the start cell's
content is a no-op: the guarded early return leaves the grid untouched
(no cell rewritten, including the start cell) and performs no status
update. -/
theorem C2_self_fill_noop (mode color : String) (info : Option ImageInfo)
    (g : Grid Cell) (sr sc : Nat) (newContent : Cell)
    (hb : brushContent mode color info = some newContent)
    (heq : getCell g sr sc = newContent) :
    fill_area mode color info g sr sc = (g, none) := by
  unfold fill_area
  rw [hb]
  simp [heq]

theorem C2_witness :
    brushContent "color" "#ffffff" none = some ⟨"color", "#ffffff"⟩ ∧
    getCell initGrid 0 0 = (⟨"color", "#ffffff"⟩ : Cell) ∧
    fill_area "color" "#ffffff" none initGrid 0 0 = (initGrid, none) :=
  ⟨rfl, rfl, C2_self_fill_noop "color" "#ffffff" none initGrid 0 0 ⟨"color", "#ffffff"⟩ rfl rfl⟩

/-- C3: loading a structure whose outer length differs from ROWS or with
any row of length other than COLS fails the dimension validation (the
raised ValueError is the format error) and the previous grid is left
completely unchanged; the commit only happens after validation passes,
so a failed load never partially applies. -/
theorem C3_load_bad_dims_rejected (prev parsed : Grid JVal)
    (h : ¬ (parsed.length = ROWS ∧ ∀ row ∈ parsed, row.length = COLS)) :
    load_dims_ok parsed = false ∧ load_commit prev parsed = prev := by
  have hdo : load_dims_ok parsed = false := by
    cases hb : load_dims_ok parsed with
    | false => rfl
    | true => exact absurd ((load_dims_ok_iff parsed).mp hb) h
  refine ⟨hdo, ?_⟩
  unfold load_commit
  rw [hdo]
  simp

theorem C3_witness :
    ¬ ((List.replicate 21 (List.replicate 20 JVal.null)).length = ROWS ∧
        ∀ row ∈ List.replicate 21 (List.replicate 20 JVal.null), row.length = COLS) ∧
    load_dims_ok (List.replicate 21 (List.replicate 20 JVal.null)) = false ∧
    load_commit [] (List.replicate 21 (List.replicate 20 JVal.null)) = [] :=
  ⟨by intro h; simp [ROWS, CANVAS_SIZE, CELL_SIZE] at h,
   C3_load_bad_dims_rejected [] (List.replicate 21 (List.replicate 20 JVal.null))
     (by intro h; simp [ROWS, CANVAS_SIZE, CELL_SIZE] at h)⟩

/-- C10: the load path validates only the outer dimensions; any parsed
structure with exactly ROWS rows of exactly COLS entries passes the
validation and is committed as the new grid before any per-cell
inspection, with no validation of the individual entries. -/
theorem C10_load_validates_dims_only (prev parsed : Grid JVal)
    (h1 : parsed.length = ROWS) (h2 : ∀ row ∈ parsed, row.length = COLS) :
    load_dims_ok parsed = true ∧ load_commit prev parsed = parsed := by
  have hdo := (load_dims_ok_iff parsed).mpr ⟨h1, h2⟩
  refine ⟨hdo, ?_⟩
  unfold load_commit
  rw [hdo]
  simp

theorem C10_witness :
    (List.replicate 20 (List.replicate 20 (JVal.num 3))).length = ROWS ∧
    (∀ row ∈ List.replicate 20 (List.replicate 20 (JVal.num 3)), row.length = COLS) ∧
    load_dims_ok (List.replicate 20 (List.replicate 20 (JVal.num 3))) = true ∧
    load_commit [] (List.replicate 20 (List.replicate 20 (JVal.num 3))) =
      List.replicate 20 (List.replicate 20 (JVal.num 3)) ∧
    isCellRecord (JVal.num 3) = false :=
  ⟨by simp [ROWS, CANVAS_SIZE, CELL_SIZE],
   by intro row hrow; rw [List.eq_of_mem_replicate hrow]; simp [COLS, CANVAS_SIZE, CELL_SIZE],
   (C10_load_validates_dims_only [] _
      (by simp [ROWS, CANVAS_SIZE, CELL_SIZE])
      (by intro row hrow; rw [List.eq_of_mem_replicate hrow]
          simp [COLS, CANVAS_SIZE, CELL_SIZE])).1,
   (C10_load_validates_dims_only [] _
      (by simp [ROWS, CANVAS_SIZE, CELL_SIZE])
      (by intro row hrow; rw [List.eq_of_mem_replicate hrow]
          simp [COLS, CANVAS_SIZE, CELL_SIZE])).2,
   rfl⟩

/-- C6: saving a well-formed grid and loading the saved form reproduces
an identical grid: the saved form passes the dimension validation, the
commit installs exactly the saved row-major array, and the serialization
is lossless (injective), so the persisted form determines the original
grid uniquely. -/
theorem C6_save_load_roundtrip (prev : Grid JVal) (g : Grid Cell) (hw : wfGrid g) :
    load_dims_ok (save_canvas g) = true ∧
    load_commit prev (save_canvas g) = save_canvas g ∧
    ∀ g' : Grid Cell, save_canvas g' = save_canvas g → g' = g := by
  have hdo : load_dims_ok (save_canvas g) = true := by
    apply (load_dims_ok_iff _).mpr
    constructor
    · rw [save_canvas, List.length_map]; exact hw.1
    · intro row hrow
      rcases List.mem_map.mp hrow with ⟨row0, h0, hrow0⟩
      rw [← hrow0, List.length_map]
      exact hw.2 _ h0
  refine ⟨hdo, ?_, ?_⟩
  · unfold load_commit
    rw [hdo]
    simp
  · intro g' hsave
    have hinj : Function.Injective (List.map (List.map cellToJ)) :=
      List.map_injective_iff.mpr (List.map_injective_iff.mpr cellToJ_inj)
    exact hinj hsave

theorem C6_witness :
    wfGrid initGrid ∧
    load_dims_ok (save_canvas initGrid) = true ∧
    load_commit [] (save_canvas initGrid) = save_canvas initGrid ∧
    ∀ g' : Grid Cell, save_canvas g' = save_canvas initGrid → g' = initGrid :=
  ⟨by decide, C6_save_load_roundtrip [] initGrid (by decide)⟩

/-- C5 counterexample: a key already present in the decoded-image
entries (cell_images) but not in-flight still triggers a new fetch: the
request guard of preload_image_from_url consults only loading_images, so
the dispatched flag is true although the claim requires an immediate
return without a fetch. -/
theorem C5_counterexample :
    ("image_url", "u") ∈ (CacheState.mk initGrid [("image_url", "u")] []).cell_images ∧
    "u" ∉ (CacheState.mk initGrid [("image_url", "u")] []).loading_images ∧
    (preload_image_from_url (CacheState.mk initGrid [("image_url", "u")] []) "u").2 = true := by
  refine ⟨by simp, by simp, rfl⟩

/-- C5 as amended: the request operation is idempotent with respect to
the in-flight set only.  A request returns without dispatching exactly
when the URL is already in loading_images (presence in cell_images is
not consulted), an in-flight URL leaves the state untouched, and N
successive requests for a fresh URL with no intervening resolution
dispatch exactly one underlying fetch. -/
theorem C5_request_dedup_inflight_only (st : CacheState) (url : String) (n : Nat) :
    ((preload_image_from_url st url).2 = false ↔ url ∈ st.loading_images) ∧
    (url ∈ st.loading_images → preload_image_from_url st url = (st, false)) ∧
    (url ∉ st.loading_images → (requestN (n + 1) st url).2 = 1) := by
  have hstuck : ∀ (k : Nat) (s : CacheState), url ∈ s.loading_images →
      requestN k s url = (s, 0) := by
    intro k
    induction k with
    | zero => intro s _; rfl
    | succ m ih =>
      intro s hs
      unfold requestN preload_image_from_url
      simp [hs, ih s hs]
  refine ⟨?_, ?_, ?_⟩
  · unfold preload_image_from_url
    by_cases h : url ∈ st.loading_images <;> simp [h]
  · intro h
    unfold preload_image_from_url
    simp [h]
  · intro h
    unfold requestN preload_image_from_url
    simp only [h, if_false, ite_false]
    rw [hstuck n _ (by simp)]
    simp

theorem C5_witness :
    "u" ∉ (CacheState.mk initGrid [] []).loading_images ∧
    (requestN 3 (CacheState.mk initGrid [] []) "u").2 = 1 :=
  ⟨by simp, (C5_request_dedup_inflight_only (CacheState.mk initGrid [] []) "u" 2).2.2 (by simp)⟩

/-- C8 counterexample: with the image tool selected and no image chosen,
draw_pixel at (0,0) on the initial grid leaves the grid unchanged but
performs no status update at all (second component none), contradicting
the claim that the rejection is surfaced as a status message for the
paint operation. -/
theorem C8_counterexample :
    draw_pixel "image" "#000000" none initGrid 0 0 = (initGrid, none) := rfl

/-- C8 as amended: with the image tool selected and no image chosen, the
fill operation is rejected with the select-a-brush error surfaced as a
status message and no grid change, while the paint operation makes no
grid change but is silently ignored with no status message. -/
theorem C8_no_brush_selected (color : String) (info : Option ImageInfo)
    (g : Grid Cell) (r c : Nat) (hinfo : info = none) :
    fill_area "image" color info g r c =
      (g, some "Error: Select a brush (color/image) before using the fill tool.") ∧
    draw_pixel "image" color info g r c = (g, none) := by
  subst hinfo
  exact ⟨rfl, rfl⟩

theorem C8_witness :
    (none : Option ImageInfo) = none ∧
    fill_area "image" "#ff0000" none initGrid 1 1 =
      (initGrid, some "Error: Select a brush (color/image) before using the fill tool.") ∧
    draw_pixel "image" "#ff0000" none initGrid 1 1 = (initGrid, none) :=
  ⟨rfl, C8_no_brush_selected "#ff0000" none initGrid 1 1 rfl⟩

/-- C4: after handle_preload_error for a failing URL, every grid cell
referencing that URL (mode image_url with that value) has been rewritten
to the default white color cell and all other cells are unchanged; the
URL is removed from the in-flight set, and no cache entry is created
(cell_images is untouched), so under the failure scenario's precondition
that no entry existed for the key, the key is absent from both
cell_images and loading_images afterwards. -/
theorem C4_failed_fetch_cleanup (grid : Grid Cell) (entries : List (String × String))
    (loading : List String) (url : String)
    (hw : wfGrid grid) (hent : ("image_url", url) ∉ entries) :
    (∀ r c, r < ROWS → c < COLS →
      getCell (handle_preload_error (CacheState.mk grid entries loading) url).grid r c =
        (if (getCell grid r c).mode = "image_url" ∧ (getCell grid r c).val = url
         then defaultCell else getCell grid r c)) ∧
    (handle_preload_error (CacheState.mk grid entries loading) url).cell_images = entries ∧
    ("image_url", url) ∉
      (handle_preload_error (CacheState.mk grid entries loading) url).cell_images ∧
    url ∉ (handle_preload_error (CacheState.mk grid entries loading) url).loading_images := by
  refine ⟨?_, rfl, hent, ?_⟩
  · intro r c hr hc
    exact getCell_map _ grid r c hw hr hc
  · unfold handle_preload_error
    simp [List.mem_filter]

theorem C4_witness :
    wfGrid (setCell initGrid 0 0 ⟨"image_url", "u"⟩) ∧
    ("image_url", "u") ∉ ([] : List (String × String)) ∧
    ((∀ r c, r < ROWS → c < COLS →
      getCell (handle_preload_error
        (CacheState.mk (setCell initGrid 0 0 ⟨"image_url", "u"⟩) [] ["u"]) "u").grid r c =
        (if (getCell (setCell initGrid 0 0 ⟨"image_url", "u"⟩) r c).mode = "image_url" ∧
            (getCell (setCell initGrid 0 0 ⟨"image_url", "u"⟩) r c).val = "u"
         then defaultCell else getCell (setCell initGrid 0 0 ⟨"image_url", "u"⟩) r c)) ∧
    (handle_preload_error
        (CacheState.mk (setCell initGrid 0 0 ⟨"image_url", "u"⟩) [] ["u"]) "u").cell_images
      = [] ∧
    ("image_url", "u") ∉
      (handle_preload_error
        (CacheState.mk (setCell initGrid 0 0 ⟨"image_url", "u"⟩) [] ["u"]) "u").cell_images ∧
    "u" ∉ (handle_preload_error
        (CacheState.mk (setCell initGrid 0 0 ⟨"image_url", "u"⟩) [] ["u"]) "u").loading_images) :=
  ⟨by decide, by simp,
   C4_failed_fetch_cleanup (setCell initGrid 0 0 ⟨"image_url", "u"⟩) [] ["u"] "u"
     (by decide) (by simp)⟩

/-- C9 counterexample: badParsed has exactly ROWS rows of COLS entries,
passes the dimension validation and is committed as the new grid by the
load path (in the source this load also reports success: the unknown
mode string triggers no preload and no drawing), yet its entries are not
well-formed mode/val cell records, refuting the claim that a successful
load preserves the every-cell-is-a-record invariant. -/
theorem C9_counterexample :
    load_dims_ok badParsed = true ∧
    load_commit (save_canvas initGrid) badParsed = badParsed ∧
    ¬ cellsWF badParsed := by
  refine ⟨rfl, ?_, ?_⟩
  · unfold load_commit
    rw [show load_dims_ok badParsed = true from rfl]
    simp
  · intro h
    have hrow : List.replicate COLS (JVal.obj [("mode", JVal.str "foo")]) ∈ badParsed := by
      unfold badParsed
      apply List.mem_replicate.mpr
      exact ⟨by simp [ROWS, CANVAS_SIZE, CELL_SIZE], rfl⟩
    have hv : JVal.obj [("mode", JVal.str "foo")] ∈
        List.replicate COLS (JVal.obj [("mode", JVal.str "foo")]) := by
      apply List.mem_replicate.mpr
      exact ⟨by simp [COLS, CANVAS_SIZE, CELL_SIZE], rfl⟩
    have := h _ hrow _ hv
    simp [isCellRecord] at this

/-! Lemmas on the neighbor-processing fold of the fill loop. -/

theorem tryWrite_pos {α : Type} [Inhabited α] [DecidableEq α] (t n : α) (g : Grid α)
    (acc : List Pos) (q : Int × Int)
    (h : 0 ≤ q.1 ∧ q.1 < (ROWS : Int) ∧ 0 ≤ q.2 ∧ q.2 < (COLS : Int) ∧
      getCell g q.1.toNat q.2.toNat = t) :
    tryWrite t n (g, acc) q =
      (setCell g q.1.toNat q.2.toNat n, acc ++ [(q.1.toNat, q.2.toNat)]) := by
  unfold tryWrite
  rw [if_pos h]

theorem tryWrite_neg {α : Type} [Inhabited α] [DecidableEq α] (t n : α) (g : Grid α)
    (acc : List Pos) (q : Int × Int)
    (h : ¬ (0 ≤ q.1 ∧ q.1 < (ROWS : Int) ∧ 0 ≤ q.2 ∧ q.2 < (COLS : Int) ∧
      getCell g q.1.toNat q.2.toNat = t)) :
    tryWrite t n (g, acc) q = (g, acc) := by
  unfold tryWrite
  rw [if_neg h]

theorem tw_foldl_wf {α : Type} [Inhabited α] [DecidableEq α] (t n : α) :
    ∀ (L : List (Int × Int)) (g : Grid α) (acc : List Pos), wfGrid g →
      wfGrid (L.foldl (tryWrite t n) (g, acc)).1 := by
  intro L
  induction L with
  | nil => intro g acc hw; exact hw
  | cons q L ih =>
    intro g acc hw
    rw [List.foldl_cons]
    by_cases hcond : 0 ≤ q.1 ∧ q.1 < (ROWS : Int) ∧ 0 ≤ q.2 ∧ q.2 < (COLS : Int) ∧
        getCell g q.1.toNat q.2.toNat = t
    · rw [tryWrite_pos t n g acc q hcond]
      obtain ⟨h1, h2, _, _, _⟩ := hcond
      exact ih _ _ (wfGrid_setCell _ _ _ _ hw (by omega))
    · rw [tryWrite_neg t n g acc q hcond]
      exact ih _ _ hw

theorem tw_foldl_pointwise {α : Type} [Inhabited α] [DecidableEq α] (t n : α) :
    ∀ (L : List (Int × Int)) (g : Grid α) (acc : List Pos) (r c : Nat), wfGrid g →
      getCell (L.foldl (tryWrite t n) (g, acc)).1 r c = getCell g r c ∨
      getCell (L.foldl (tryWrite t n) (g, acc)).1 r c = n := by
  intro L
  induction L with
  | nil => intro g acc r c _; left; rfl
  | cons q L ih =>
    intro g acc r c hw
    rw [List.foldl_cons]
    by_cases hcond : 0 ≤ q.1 ∧ q.1 < (ROWS : Int) ∧ 0 ≤ q.2 ∧ q.2 < (COLS : Int) ∧
        getCell g q.1.toNat q.2.toNat = t
    · rw [tryWrite_pos t n g acc q hcond]
      obtain ⟨h1, h2, h3, h4, h5⟩ := hcond
      have hw1 := wfGrid_setCell g q.1.toNat q.2.toNat n hw (by omega)
      rcases ih (setCell g q.1.toNat q.2.toNat n) (acc ++ [(q.1.toNat, q.2.toNat)]) r c hw1
        with h | h
      · by_cases hpos : (r, c) = (q.1.toNat, q.2.toNat)
        · right
          rw [h, show r = q.1.toNat from congrArg Prod.fst hpos,
            show c = q.2.toNat from congrArg Prod.snd hpos]
          exact getCell_setCell_self g q.1.toNat q.2.toNat n hw (by omega) (by omega)
        · left
          rw [h]
          exact getCell_setCell_ne g q.1.toNat q.2.toNat r c n hpos
      · right; exact h
    · rw [tryWrite_neg t n g acc q hcond]
      exact ih g acc r c hw

theorem tw_foldl_sub {α : Type} [Inhabited α] [DecidableEq α] (t n : α) :
    ∀ (L : List (Int × Int)) (g : Grid α) (acc : List Pos) (x : Pos), x ∈ acc →
      x ∈ (L.foldl (tryWrite t n) (g, acc)).2 := by
  intro L
  induction L with
  | nil => intro g acc x hx; exact hx
  | cons q L ih =>
    intro g acc x hx
    rw [List.foldl_cons]
    by_cases hcond : 0 ≤ q.1 ∧ q.1 < (ROWS : Int) ∧ 0 ≤ q.2 ∧ q.2 < (COLS : Int) ∧
        getCell g q.1.toNat q.2.toNat = t
    · rw [tryWrite_pos t n g acc q hcond]
      exact ih _ _ x (by simp [hx])
    · rw [tryWrite_neg t n g acc q hcond]
      exact ih _ _ x hx

theorem tw_foldl_changes {α : Type} [Inhabited α] [DecidableEq α] (t n : α) :
    ∀ (L : List (Int × Int)) (g : Grid α) (acc : List Pos) (r c : Nat), wfGrid g →
      getCell (L.foldl (tryWrite t n) (g, acc)).1 r c ≠ getCell g r c →
      (r < ROWS ∧ c < COLS ∧ ((r : Int), (c : Int)) ∈ L ∧ getCell g r c = t ∧
        getCell (L.foldl (tryWrite t n) (g, acc)).1 r c = n ∧
        (r, c) ∈ (L.foldl (tryWrite t n) (g, acc)).2) := by
  intro L
  induction L with
  | nil => intro g acc r c _ h; exact absurd rfl h
  | cons q L ih =>
    intro g acc r c hw hch
    rw [List.foldl_cons] at hch ⊢
    by_cases hcond : 0 ≤ q.1 ∧ q.1 < (ROWS : Int) ∧ 0 ≤ q.2 ∧ q.2 < (COLS : Int) ∧
        getCell g q.1.toNat q.2.toNat = t
    · rw [tryWrite_pos t n g acc q hcond] at hch ⊢
      obtain ⟨h1, h2, h3, h4, h5⟩ := hcond
      have hw1 := wfGrid_setCell g q.1.toNat q.2.toNat n hw (by omega)
      by_cases hpos : (r, c) = (q.1.toNat, q.2.toNat)
      · have hr : r = q.1.toNat := congrArg Prod.fst hpos
        have hc : c = q.2.toNat := congrArg Prod.snd hpos
        subst hr
        subst hc
        refine ⟨by omega, by omega, ?_, h5, ?_, ?_⟩
        · rw [Int.toNat_of_nonneg h1, Int.toNat_of_nonneg h3]
          exact List.mem_cons_self _ _
        · have hset := getCell_setCell_self g q.1.toNat q.2.toNat n hw (by omega) (by omega)
          rcases tw_foldl_pointwise t n L (setCell g q.1.toNat q.2.toNat n)
            (acc ++ [(q.1.toNat, q.2.toNat)]) q.1.toNat q.2.toNat hw1 with h | h
          · rw [h, hset]
          · exact h
        · exact tw_foldl_sub t n L _ _ _ (by simp)
      · have hne2 := getCell_setCell_ne g q.1.toNat q.2.toNat r c n hpos
        have hch2 : getCell (L.foldl (tryWrite t n)
            (setCell g q.1.toNat q.2.toNat n, acc ++ [(q.1.toNat, q.2.toNat)])).1 r c ≠
            getCell (setCell g q.1.toNat q.2.toNat n) r c := by
          rw [hne2]; exact hch
        obtain ⟨a1, a2, a3, a4, a5, a6⟩ := ih _ _ r c hw1 hch2
        rw [hne2] at a4
        exact ⟨a1, a2, by right; exact a3, a4, a5, a6⟩
    · rw [tryWrite_neg t n g acc q hcond] at hch ⊢
      obtain ⟨a1, a2, a3, a4, a5, a6⟩ := ih _ _ r c hw hch
      exact ⟨a1, a2, by right; exact a3, a4, a5, a6⟩

theorem tw_foldl_out {α : Type} [Inhabited α] [DecidableEq α] (t n : α) (hnt : n ≠ t) :
    ∀ (L : List (Int × Int)) (g : Grid α) (acc : List Pos), wfGrid g →
      ∀ x ∈ (L.foldl (tryWrite t n) (g, acc)).2, x ∈ acc ∨
        (inB x ∧ ((x.1 : Int), (x.2 : Int)) ∈ L ∧ getCell g x.1 x.2 = t ∧
          getCell (L.foldl (tryWrite t n) (g, acc)).1 x.1 x.2 = n) := by
  intro L
  induction L with
  | nil => intro g acc _ x hx; left; exact hx
  | cons q L ih =>
    intro g acc hw x hx
    rw [List.foldl_cons] at hx ⊢
    by_cases hcond : 0 ≤ q.1 ∧ q.1 < (ROWS : Int) ∧ 0 ≤ q.2 ∧ q.2 < (COLS : Int) ∧
        getCell g q.1.toNat q.2.toNat = t
    · rw [tryWrite_pos t n g acc q hcond] at hx ⊢
      obtain ⟨h1, h2, h3, h4, h5⟩ := hcond
      have hw1 := wfGrid_setCell g q.1.toNat q.2.toNat n hw (by omega)
      rcases ih _ _ hw1 x hx with hmem | ⟨hB, hL, hget, hres⟩
      · rcases List.mem_append.mp hmem with hmem | hmem
        · left; exact hmem
        · have hxq : x = (q.1.toNat, q.2.toNat) := by simpa using hmem
          subst hxq
          right
          refine ⟨⟨by omega, by omega⟩, ?_, h5, ?_⟩
          · simp only []
            rw [Int.toNat_of_nonneg h1, Int.toNat_of_nonneg h3]
            exact List.mem_cons_self _ _
          · have hset := getCell_setCell_self g q.1.toNat q.2.toNat n hw (by omega) (by omega)
            rcases tw_foldl_pointwise t n L (setCell g q.1.toNat q.2.toNat n)
              (acc ++ [(q.1.toNat, q.2.toNat)]) q.1.toNat q.2.toNat hw1 with h | h
            · rw [h, hset]
            · exact h
      · right
        refine ⟨hB, by right; exact hL, ?_, hres⟩
        by_cases hpos : (x.1, x.2) = (q.1.toNat, q.2.toNat)
        · exfalso
          rw [show x = (x.1, x.2) from rfl, hpos] at hget
          rw [getCell_setCell_self g q.1.toNat q.2.toNat n hw (by omega) (by omega)] at hget
          exact hnt hget
        · rw [← getCell_setCell_ne g q.1.toNat q.2.toNat x.1 x.2 n hpos]
          exact hget
    · rw [tryWrite_neg t n g acc q hcond] at hx ⊢
      rcases ih _ _ hw x hx with hmem | ⟨hB, hL, hget, hres⟩
      · left; exact hmem
      · right; exact ⟨hB, by right; exact hL, hget, hres⟩

theorem tw_foldl_nbrs {α : Type} [Inhabited α] [DecidableEq α] (t n : α) (hnt : n ≠ t) :
    ∀ (L : List (Int × Int)) (g : Grid α) (acc : List Pos), wfGrid g →
      ∀ q ∈ L, 0 ≤ q.1 → q.1 < (ROWS : Int) → 0 ≤ q.2 → q.2 < (COLS : Int) →
        getCell (L.foldl (tryWrite t n) (g, acc)).1 q.1.toNat q.2.toNat ≠ t := by
  intro L
  induction L with
  | nil => intro g acc _ q hq; simp at hq
  | cons h0 L ih =>
    intro g acc hw q hq hb1 hb2 hb3 hb4
    rw [List.foldl_cons]
    by_cases hcond : 0 ≤ h0.1 ∧ h0.1 < (ROWS : Int) ∧ 0 ≤ h0.2 ∧ h0.2 < (COLS : Int) ∧
        getCell g h0.1.toNat h0.2.toNat = t
    · rw [tryWrite_pos t n g acc h0 hcond]
      obtain ⟨h1, h2, h3, h4, h5⟩ := hcond
      have hw1 := wfGrid_setCell g h0.1.toNat h0.2.toNat n hw (by omega)
      rcases List.mem_cons.mp hq with hq | hq
      · subst hq
        rcases tw_foldl_pointwise t n L (setCell g q.1.toNat q.2.toNat n)
          (acc ++ [(q.1.toNat, q.2.toNat)]) q.1.toNat q.2.toNat hw1 with h | h
        · rw [h, getCell_setCell_self g q.1.toNat q.2.toNat n hw (by omega) (by omega)]
          exact hnt
        · rw [h]; exact hnt
      · exact ih _ _ hw1 q hq hb1 hb2 hb3 hb4
    · rw [tryWrite_neg t n g acc h0 hcond]
      rcases List.mem_cons.mp hq with hq | hq
      · subst hq
        have hqt : getCell g q.1.toNat q.2.toNat ≠ t := by
          intro hgt
          exact hcond ⟨hb1, hb2, hb3, hb4, hgt⟩
        rcases tw_foldl_pointwise t n L g acc q.1.toNat q.2.toNat hw with h | h
        · rw [h]; exact hqt
        · rw [h]; exact hnt
      · exact ih _ _ hw q hq hb1 hb2 hb3 hb4

theorem tw_foldl_measure {α : Type} [Inhabited α] [DecidableEq α] (t n : α) (hnt : n ≠ t) :
    ∀ (L : List (Int × Int)) (g : Grid α) (acc : List Pos), wfGrid g →
      countTarget (L.foldl (tryWrite t n) (g, acc)).1 t +
        (L.foldl (tryWrite t n) (g, acc)).2.length ≤ countTarget g t + acc.length := by
  intro L
  induction L with
  | nil => intro g acc _; exact Nat.le_refl _
  | cons q L ih =>
    intro g acc hw
    rw [List.foldl_cons]
    by_cases hcond : 0 ≤ q.1 ∧ q.1 < (ROWS : Int) ∧ 0 ≤ q.2 ∧ q.2 < (COLS : Int) ∧
        getCell g q.1.toNat q.2.toNat = t
    · rw [tryWrite_pos t n g acc q hcond]
      obtain ⟨h1, h2, h3, h4, h5⟩ := hcond
      have hw1 := wfGrid_setCell g q.1.toNat q.2.toNat n hw (by omega)
      have hdec := countTarget_setCell g q.1.toNat q.2.toNat n t hw (by omega) (by omega) h5 hnt
      have := ih (setCell g q.1.toNat q.2.toNat n) (acc ++ [(q.1.toNat, q.2.toNat)]) hw1
      rw [List.length_append] at this
      simp only [List.length_cons, List.length_nil] at this
      omega
    · rw [tryWrite_neg t n g acc q hcond]
      exact ih g acc hw

/-! Adjacency and reachability lemmas. -/

theorem mem_nbrs_adj (p : Pos) (r c : Nat) :
    ((r : Int), (c : Int)) ∈ deltas.map (nbr p) → adj p (r, c) := by
  intro h
  simp only [deltas, nbr, List.map_cons, List.map_nil, List.mem_cons, List.not_mem_nil,
    or_false, Prod.mk.injEq] at h
  unfold adj
  simp only []
  omega

theorem adj_mem_nbrs (p y : Pos) :
    adj p y → ((y.1 : Int), (y.2 : Int)) ∈ deltas.map (nbr p) := by
  intro h
  unfold adj at h
  simp only [deltas, nbr, List.map_cons, List.map_nil, List.mem_cons, List.not_mem_nil,
    or_false, Prod.mk.injEq]
  omega

theorem Reach_content {α : Type} [Inhabited α] (g : Grid α) (t : α) (s p : Pos)
    (hs : getCell g s.1 s.2 = t) (h : Reach g t s p) : getCell g p.1 p.2 = t := by
  induction h with
  | base => exact hs
  | step _ _ _ hc _ => exact hc

theorem Reach_inB {α : Type} [Inhabited α] (g : Grid α) (t : α) (s p : Pos)
    (hs : inB s) (h : Reach g t s p) : inB p := by
  induction h with
  | base => exact hs
  | step _ _ hb _ _ => exact hb

/-! The BFS loop: shape preservation, fuel insensitivity and the main
invariant argument. -/

theorem fillLoop_wf {α : Type} [Inhabited α] [DecidableEq α] (t n : α) :
    ∀ (fuel : Nat) (g : Grid α) (q : List Pos), wfGrid g →
      wfGrid (fillLoop t n fuel g q).1 := by
  intro fuel
  induction fuel with
  | zero => intro g q hw; exact hw
  | succ fuel ih =>
    intro g q hw
    cases q with
    | nil => exact hw
    | cons p rest =>
      exact ih (processCell g t n p).1 (rest ++ (processCell g t n p).2)
        (tw_foldl_wf t n _ g [] hw)

theorem fillLoop_fuel_add {α : Type} [Inhabited α] [DecidableEq α] (t n : α) :
    ∀ (fuel : Nat) (g : Grid α) (q : List Pos), (fillLoop t n fuel g q).2 = [] →
      ∀ extra, fillLoop t n (fuel + extra) g q = fillLoop t n fuel g q := by
  intro fuel
  induction fuel with
  | zero =>
    intro g q h extra
    have hq : q = [] := h
    subst hq
    cases extra with
    | zero => rfl
    | succ e => rfl
  | succ fuel ih =>
    intro g q h extra
    cases q with
    | nil =>
      rw [show fuel + 1 + extra = (fuel + extra) + 1 from by omega]
      rfl
    | cons p rest =>
      rw [show fuel + 1 + extra = (fuel + extra) + 1 from by omega]
      have hstep : fillLoop t n (fuel + 1) g (p :: rest) =
          fillLoop t n fuel (processCell g t n p).1 (rest ++ (processCell g t n p).2) := rfl
      have hstep2 : fillLoop t n ((fuel + extra) + 1) g (p :: rest) =
          fillLoop t n (fuel + extra) (processCell g t n p).1
            (rest ++ (processCell g t n p).2) := rfl
      rw [hstep] at h
      rw [hstep, hstep2]
      exact ih _ _ h extra

theorem fillLoop_inv {α : Type} [Inhabited α] [DecidableEq α] (g0 : Grid α) (t n : α)
    (s : Pos) (hnt : n ≠ t) :
    ∀ (fuel : Nat) (g : Grid α) (q : List Pos),
      FillInv g0 t n s g q → countTarget g t + q.length ≤ fuel →
      (fillLoop t n fuel g q).2 = [] ∧ FillInv g0 t n s (fillLoop t n fuel g q).1 [] := by
  intro fuel
  induction fuel with
  | zero =>
    intro g q hinv hm
    have hq : q = [] := List.length_eq_zero.mp (by omega)
    subst hq
    exact ⟨rfl, hinv⟩
  | succ fuel ih =>
    intro g q hinv hm
    cases q with
    | nil => exact ⟨rfl, hinv⟩
    | cons p rest =>
      obtain ⟨hwf, hsound, hqueue, hfrontier, hstart⟩ := hinv
      obtain ⟨hpB, hpn, hpreach⟩ := hqueue p (List.mem_cons_self p rest)
      have hstep : fillLoop t n (fuel + 1) g (p :: rest) =
          fillLoop t n fuel (processCell g t n p).1 (rest ++ (processCell g t n p).2) := rfl
      rw [hstep]
      have F_wf : wfGrid (processCell g t n p).1 := tw_foldl_wf t n _ g [] hwf
      have F_point : ∀ r c : Nat,
          getCell (processCell g t n p).1 r c = getCell g r c ∨
          getCell (processCell g t n p).1 r c = n :=
        fun r c => tw_foldl_pointwise t n _ g [] r c hwf
      have F_changes : ∀ r c : Nat,
          getCell (processCell g t n p).1 r c ≠ getCell g r c →
          (r < ROWS ∧ c < COLS ∧ ((r : Int), (c : Int)) ∈ deltas.map (nbr p) ∧
            getCell g r c = t ∧ getCell (processCell g t n p).1 r c = n ∧
            (r, c) ∈ (processCell g t n p).2) :=
        fun r c => tw_foldl_changes t n (deltas.map (nbr p)) g [] r c hwf
      have F_out2 : ∀ x ∈ (processCell g t n p).2, inB x ∧ adj p x ∧
          getCell g x.1 x.2 = t ∧ getCell (processCell g t n p).1 x.1 x.2 = n := by
        intro x hx
        rcases tw_foldl_out t n hnt (deltas.map (nbr p)) g [] hwf x hx
          with h | ⟨hB, hL, hget, hres⟩
        · simp at h
        · exact ⟨hB, mem_nbrs_adj p x.1 x.2 hL, hget, hres⟩
      have F_nbrs : ∀ y : Pos, adj p y → inB y →
          getCell (processCell g t n p).1 y.1 y.2 ≠ t := by
        intro y hadj hyB
        have hyB2 : y.1 < ROWS ∧ y.2 < COLS := hyB
        have := tw_foldl_nbrs t n hnt (deltas.map (nbr p)) g [] hwf
          ((y.1 : Int), (y.2 : Int)) (adj_mem_nbrs p y hadj)
          (by omega) (by simp only []; omega) (by omega) (by simp only []; omega)
        simpa using this
      refine ih (processCell g t n p).1 (rest ++ (processCell g t n p).2)
        ⟨F_wf, ?_, ?_, ?_, ?_⟩ ?_
      · -- soundness is preserved: new writes are eligible reachable neighbors of p
        intro r c hr hc
        by_cases hch : getCell (processCell g t n p).1 r c = getCell g r c
        · rw [hch]; exact hsound r c hr hc
        · obtain ⟨_, _, hmem, hgt, hgn, _⟩ := F_changes r c hch
          have hg0 : getCell g0 r c = t := by
            rcases hsound r c hr hc with h | ⟨h, _, _⟩
            · rw [← h]; exact hgt
            · exfalso; rw [h] at hgt; exact hnt hgt
          exact Or.inr ⟨hgn, hg0, Reach.step hpreach (mem_nbrs_adj p r c hmem) ⟨hr, hc⟩ hg0⟩
      · -- queued cells stay written and reachable
        intro x hx
        rcases List.mem_append.mp hx with hx | hx
        · obtain ⟨hxB, hxn, hxr⟩ := hqueue x (List.mem_cons_of_mem p hx)
          refine ⟨hxB, ?_, hxr⟩
          rcases F_point x.1 x.2 with h | h
          · rw [h]; exact hxn
          · exact h
        · obtain ⟨hxB, hxadj, hxt, hxn⟩ := F_out2 x hx
          have hxB2 : x.1 < ROWS ∧ x.2 < COLS := hxB
          have hg0 : getCell g0 x.1 x.2 = t := by
            rcases hsound x.1 x.2 hxB2.1 hxB2.2 with h | ⟨h, _, _⟩
            · rw [← h]; exact hxt
            · exfalso; rw [h] at hxt; exact hnt hxt
          exact ⟨hxB, hxn, Reach.step hpreach hxadj hxB hg0⟩
      · -- every written cell is queued or has no remaining target neighbor
        intro r c hr hc hchg
        by_cases hpe : (r, c) = p
        · right
          intro y hadj hyB
          rw [hpe] at hadj
          exact F_nbrs y hadj hyB
        · by_cases hch : getCell (processCell g t n p).1 r c = getCell g r c
          · have hold : getCell g r c ≠ getCell g0 r c := by
              rw [← hch]; exact hchg
            rcases hfrontier r c hr hc hold with hmem | hdone
            · rcases List.mem_cons.mp hmem with h | h
              · exact absurd h hpe
              · exact Or.inl (List.mem_append.mpr (Or.inl h))
            · right
              intro y hadj hyB
              have hy := hdone y hadj hyB
              rcases F_point y.1 y.2 with h | h
              · rw [h]; exact hy
              · rw [h]; exact hnt
          · obtain ⟨_, _, _, _, _, hmem⟩ := F_changes r c hch
            exact Or.inl (List.mem_append.mpr (Or.inr hmem))
      · -- the start cell stays written
        rcases F_point s.1 s.2 with h | h
        · rw [h]; exact hstart
        · exact h
      · -- the measure decreases by at least one per dequeue
        have F_meas : countTarget (processCell g t n p).1 t +
            (processCell g t n p).2.length ≤ countTarget g t + ([] : List Pos).length :=
          tw_foldl_measure t n hnt (deltas.map (nbr p)) g [] hwf
        simp only [List.length_nil, Nat.add_zero] at F_meas
        rw [List.length_append]
        simp only [List.length_cons] at hm
        omega

theorem fill_init_inv {α : Type} [Inhabited α] [DecidableEq α] (g : Grid α) (sr sc : Nat)
    (n : α) (hw : wfGrid g) (hr : sr < ROWS) (hc : sc < COLS)
    (hnt : n ≠ getCell g sr sc) :
    FillInv g (getCell g sr sc) n (sr, sc) (setCell g sr sc n) [(sr, sc)] ∧
    countTarget (setCell g sr sc n) (getCell g sr sc) + 1 ≤ ROWS * COLS := by
  have hset := getCell_setCell_self g sr sc n hw hr hc
  have hw1 := wfGrid_setCell g sr sc n hw hr
  constructor
  · refine ⟨hw1, ?_, ?_, ?_, hset⟩
    · intro r c hr' hc'
      by_cases hpe : (r, c) = (sr, sc)
      · have h1 : r = sr := congrArg Prod.fst hpe
        have h2 : c = sc := congrArg Prod.snd hpe
        subst h1
        subst h2
        exact Or.inr ⟨hset, rfl, Reach.base⟩
      · exact Or.inl (getCell_setCell_ne g sr sc r c n hpe)
    · intro x hx
      have hx2 : x = (sr, sc) := by simpa using hx
      subst hx2
      exact ⟨⟨hr, hc⟩, hset, Reach.base⟩
    · intro r c hr' hc' hchg
      by_cases hpe : (r, c) = (sr, sc)
      · exact Or.inl (by simp [hpe])
      · exact absurd (getCell_setCell_ne g sr sc r c n hpe) hchg
  · apply countTarget_bound (setCell g sr sc n) sr sc (getCell g sr sc) hw1 hr hc
    rw [hset]
    exact hnt

theorem reach_all {α : Type} [Inhabited α] (g : Grid α) (t : α) (sr sc : Nat)
    (hr : sr < ROWS) (hc : sc < COLS)
    (hall : ∀ r c, r < ROWS → c < COLS → getCell g r c = t) :
    ∀ r c, r < ROWS → c < COLS → Reach g t (sr, sc) (r, c) := by
  have hstep_col : ∀ r, r < ROWS → Reach g t (sr, sc) (r, sc) →
      ∀ c, c < COLS → Reach g t (sr, sc) (r, c) := by
    intro r hrR hbase
    have hright : ∀ d, sc + d < COLS → Reach g t (sr, sc) (r, sc + d) := by
      intro d
      induction d with
      | zero => intro _; exact hbase
      | succ k ihk =>
        intro hlt
        exact Reach.step (ihk (by omega)) (Or.inl ⟨rfl, Or.inl rfl⟩) ⟨hrR, hlt⟩
          (hall _ _ hrR hlt)
    have hleft : ∀ d, d ≤ sc → Reach g t (sr, sc) (r, sc - d) := by
      intro d
      induction d with
      | zero => intro _; exact hbase
      | succ k ihk =>
        intro hle
        have hlt : sc - (k + 1) < COLS := by omega
        exact Reach.step (ihk (by omega)) (Or.inl ⟨rfl, Or.inr (by omega)⟩) ⟨hrR, hlt⟩
          (hall _ _ hrR hlt)
    intro c hcC
    by_cases h : sc ≤ c
    · have := hright (c - sc) (by omega)
      rw [Nat.add_sub_cancel' h] at this
      exact this
    · have := hleft (sc - c) (by omega)
      rw [show sc - (sc - c) = c from by omega] at this
      exact this
  have hrow : ∀ r, r < ROWS → Reach g t (sr, sc) (r, sc) := by
    have hup : ∀ d, sr + d < ROWS → Reach g t (sr, sc) (sr + d, sc) := by
      intro d
      induction d with
      | zero => intro _; exact Reach.base
      | succ k ihk =>
        intro hlt
        exact Reach.step (ihk (by omega)) (Or.inr ⟨rfl, Or.inl rfl⟩) ⟨hlt, hc⟩
          (hall _ _ hlt hc)
    have hdown : ∀ d, d ≤ sr → Reach g t (sr, sc) (sr - d, sc) := by
      intro d
      induction d with
      | zero => intro _; exact Reach.base
      | succ k ihk =>
        intro hle
        have hlt : sr - (k + 1) < ROWS := by omega
        exact Reach.step (ihk (by omega)) (Or.inr ⟨rfl, Or.inr (by omega)⟩) ⟨hlt, hc⟩
          (hall _ _ hlt hc)
    intro r hrR
    by_cases h : sr ≤ r
    · have := hup (r - sr) (by omega)
      rw [Nat.add_sub_cancel' h] at this
      exact this
    · have := hdown (sr - r) (by omega)
      rw [show sr - (sr - r) = r from by omega] at this
      exact this
  intro r c hrR hcC
  exact hstep_col r hrR (hrow r hrR) c hcC

theorem reach_only_start {α : Type} [Inhabited α] (g : Grid α) (t : α) (sr sc dr dc : Nat)
    (_hs : getCell g sr sc = t)
    (hrow : dr = sr + 1 ∨ sr = dr + 1) (hcol : dc = sc + 1 ∨ sc = dc + 1)
    (honly : ∀ r c, r < ROWS → c < COLS → getCell g r c = t →
      (r, c) = (sr, sc) ∨ (r, c) = (dr, dc)) :
    ¬ Reach g t (sr, sc) (dr, dc) := by
  intro hreach
  have aux : ∀ p : Pos, Reach g t (sr, sc) p → p = (sr, sc) := by
    intro p hp
    induction hp with
    | base => rfl
    | @step a b hrch hadj hinb hcont ih =>
      have hb2 : b.1 < ROWS ∧ b.2 < COLS := hinb
      rcases honly b.1 b.2 hb2.1 hb2.2 hcont with h | h
      · exact h
      · exfalso
        rw [ih] at hadj
        rw [show b = (b.1, b.2) from rfl, h] at hadj
        have hadj2 : (sr = dr ∧ (dc = sc + 1 ∨ sc = dc + 1)) ∨
            (sc = dc ∧ (dr = sr + 1 ∨ sr = dr + 1)) := hadj
        omega
  have hds := aux (dr, dc) hreach
  have h1 : dr = sr := congrArg Prod.fst hds
  omega

theorem fill_area_exact (g : Grid Cell) (mode color : String) (info : Option ImageInfo)
    (sr sc : Nat) (newContent : Cell)
    (hw : wfGrid g) (hr : sr < ROWS) (hc : sc < COLS)
    (hb : brushContent mode color info = some newContent)
    (hnt : newContent ≠ getCell g sr sc) :
    ∀ r c, r < ROWS → c < COLS →
      (Reach g (getCell g sr sc) (sr, sc) (r, c) →
        getCell (fill_area mode color info g sr sc).1 r c = newContent) ∧
      (¬ Reach g (getCell g sr sc) (sr, sc) (r, c) →
        getCell (fill_area mode color info g sr sc).1 r c = getCell g r c) := by
  have hfa : (fill_area mode color info g sr sc).1 =
      (fillLoop (getCell g sr sc) newContent (ROWS * COLS)
        (setCell g sr sc newContent) [(sr, sc)]).1 := by
    unfold fill_area
    simp only [hb]
    rw [if_neg (fun h => hnt h.symm)]
  obtain ⟨hinv0, hm0⟩ := fill_init_inv g sr sc newContent hw hr hc hnt
  obtain ⟨hemp, hinvf⟩ := fillLoop_inv g (getCell g sr sc) newContent (sr, sc) hnt
    (ROWS * COLS) (setCell g sr sc newContent) [(sr, sc)] hinv0 (by simpa using hm0)
  obtain ⟨hwff, hsound, _, hfrontier, hstart⟩ := hinvf
  have hreached : ∀ p : Pos, Reach g (getCell g sr sc) (sr, sc) p →
      getCell (fillLoop (getCell g sr sc) newContent (ROWS * COLS)
        (setCell g sr sc newContent) [(sr, sc)]).1 p.1 p.2 = newContent := by
    intro p hp
    induction hp with
    | base => exact hstart
    | @step a b hrch hadj hinb hcont ih =>
      have ha_t : getCell g a.1 a.2 = getCell g sr sc :=
        Reach_content g _ (sr, sc) a rfl hrch
      have ha_inB : a.1 < ROWS ∧ a.2 < COLS :=
        Reach_inB g _ (sr, sc) a ⟨hr, hc⟩ hrch
      have ha_chg : getCell (fillLoop (getCell g sr sc) newContent (ROWS * COLS)
          (setCell g sr sc newContent) [(sr, sc)]).1 a.1 a.2 ≠ getCell g a.1 a.2 := by
        rw [ih, ha_t]
        exact hnt
      rcases hfrontier a.1 a.2 ha_inB.1 ha_inB.2 ha_chg with hmem | hdone
      · simp at hmem
      · have hb_ne := hdone b hadj hinb
        have hb_chg : getCell (fillLoop (getCell g sr sc) newContent (ROWS * COLS)
            (setCell g sr sc newContent) [(sr, sc)]).1 b.1 b.2 ≠ getCell g b.1 b.2 := by
          rw [hcont]
          exact hb_ne
        have hb2 : b.1 < ROWS ∧ b.2 < COLS := hinb
        rcases hsound b.1 b.2 hb2.1 hb2.2 with h | ⟨h, _, _⟩
        · exact absurd h hb_chg
        · exact h
  intro r c hr' hc'
  rw [hfa]
  constructor
  · intro hre
    exact hreached (r, c) hre
  · intro hnre
    rcases hsound r c hr' hc' with h | ⟨_, _, hre⟩
    · exact h
    · exact absurd hre hnre

/-- C1: for every well-formed grid and in-bounds start cell, when the
replacement is not structurally equal to the start cell's content the
fill rewrites exactly the set of cells reachable from the start through
chains of orthogonal neighbors whose content equals the start cell's
original content, and leaves every other cell unchanged; in particular
an all-identical grid is rewritten entirely, and a second target cell
touching the start only at a corner (being, with the start, the only
cell of that content) stays in its own region and is left unchanged. -/
theorem C1_fill_exact_region (g : Grid Cell) (mode color : String) (info : Option ImageInfo)
    (sr sc : Nat) (newContent : Cell)
    (hw : wfGrid g) (hr : sr < ROWS) (hc : sc < COLS)
    (hb : brushContent mode color info = some newContent)
    (hnt : newContent ≠ getCell g sr sc) :
    FillSpec g mode color info sr sc newContent := by
  have hex := fill_area_exact g mode color info sr sc newContent hw hr hc hb hnt
  refine ⟨hex, ?_, ?_⟩
  · intro hall r c hr' hc'
    exact (hex r c hr' hc').1 (reach_all g (getCell g sr sc) sr sc hr hc hall r c hr' hc')
  · intro dr dc hdr hdc hrowd hcold hd honly
    have hnr := reach_only_start g (getCell g sr sc) sr sc dr dc rfl hrowd hcold honly
    rw [(hex dr dc hdr hdc).2 hnr]
    exact hd

theorem C1_witness :
    wfGrid initGrid ∧ 0 < ROWS ∧ 0 < COLS ∧
    brushContent "color" "#000000" none = some ⟨"color", "#000000"⟩ ∧
    (⟨"color", "#000000"⟩ : Cell) ≠ getCell initGrid 0 0 ∧
    FillSpec initGrid "color" "#000000" none 0 0 ⟨"color", "#000000"⟩ :=
  ⟨by decide, by decide, by decide, rfl, by decide,
   C1_fill_exact_region initGrid "color" "#000000" none 0 0 ⟨"color", "#000000"⟩
     (by decide) (by decide) (by decide) rfl (by decide)⟩

/-- C7: the fill BFS terminates on every well-formed grid and in-bounds
start cell whenever it runs (replacement different from the target):
because each cell is overwritten before being enqueued and eligibility
requires the original target content, each cell is enqueued at most
once, so the frontier empties within the ROWS * COLS fuel budget, and
granting any extra fuel changes nothing. -/
theorem C7_fill_terminates (g : Grid Cell) (sr sc : Nat) (n : Cell)
    (hw : wfGrid g) (hr : sr < ROWS) (hc : sc < COLS) (hnt : n ≠ getCell g sr sc) :
    (fillLoop (getCell g sr sc) n (ROWS * COLS) (setCell g sr sc n) [(sr, sc)]).2 = [] ∧
    ∀ extra, fillLoop (getCell g sr sc) n (ROWS * COLS + extra)
        (setCell g sr sc n) [(sr, sc)] =
      fillLoop (getCell g sr sc) n (ROWS * COLS) (setCell g sr sc n) [(sr, sc)] := by
  obtain ⟨hinv0, hm0⟩ := fill_init_inv g sr sc n hw hr hc hnt
  obtain ⟨hemp, _⟩ := fillLoop_inv g (getCell g sr sc) n (sr, sc) hnt (ROWS * COLS)
    (setCell g sr sc n) [(sr, sc)] hinv0 (by simpa using hm0)
  exact ⟨hemp, fun extra => fillLoop_fuel_add _ _ _ _ _ hemp extra⟩

theorem C7_witness :
    wfGrid initGrid ∧ 0 < ROWS ∧ 0 < COLS ∧
    ((⟨"color", "#000000"⟩ : Cell) ≠ getCell initGrid 0 0) ∧
    (fillLoop (getCell initGrid 0 0) ⟨"color", "#000000"⟩ (ROWS * COLS)
      (setCell initGrid 0 0 ⟨"color", "#000000"⟩) [(0, 0)]).2 = [] :=
  ⟨by decide, by decide, by decide, by decide,
   (C7_fill_terminates initGrid 0 0 ⟨"color", "#000000"⟩
     (by decide) (by decide) (by decide) (by decide)).1⟩

/-- C9 as amended: paint/erase (draw_pixel), fill, clear and the
failed-fetch rewrite all preserve the exactly-ROWS-rows-of-COLS-columns
grid shape, and a load commits only dimension-validated data, so every
operation preserves the shape and the grid is never resized; per-cell
record well-formedness, however, is guaranteed by the typed operations
but not by load (see the counterexample). -/
theorem C9_shape_preservation :
    (∀ (mode color : String) (info : Option ImageInfo) (g : Grid Cell) (r c : Nat),
      wfGrid g → r < ROWS → c < COLS → wfGrid (draw_pixel mode color info g r c).1) ∧
    (∀ (mode color : String) (info : Option ImageInfo) (g : Grid Cell) (sr sc : Nat),
      wfGrid g → sr < ROWS → sc < COLS → wfGrid (fill_area mode color info g sr sc).1) ∧
    wfGrid clear_canvas ∧
    (∀ prev parsed : Grid JVal, wfGrid prev → wfGrid (load_commit prev parsed)) ∧
    (∀ (st : CacheState) (url : String), wfGrid st.grid →
      wfGrid (handle_preload_error st url).grid) := by
  refine ⟨?_, ?_, by decide, ?_, ?_⟩
  · intro mode color info g r c hw hr hc
    unfold draw_pixel
    cases brushContent mode color info with
    | none => exact hw
    | some cell => exact wfGrid_setCell g r c cell hw hr
  · intro mode color info g sr sc hw hr hc
    unfold fill_area
    cases hbc : brushContent mode color info with
    | none => exact hw
    | some newContent =>
      by_cases h : getCell g sr sc = newContent
      · simp only [h, if_true]
        exact hw
      · simp only [if_neg h]
        exact fillLoop_wf (getCell g sr sc) newContent (ROWS * COLS)
          (setCell g sr sc newContent) [(sr, sc)]
          (wfGrid_setCell g sr sc newContent hw hr)
  · intro prev parsed hwp
    unfold load_commit
    by_cases h : load_dims_ok parsed = true
    · rw [if_pos h]
      exact (load_dims_ok_iff parsed).mp h
    · rw [if_neg h]
      exact hwp
  · intro st url hw
    exact wfGrid_map _ _ hw

theorem C9_witness :
    wfGrid initGrid ∧
    wfGrid (draw_pixel "color" "#ff0000" none initGrid 2 3).1 ∧
    wfGrid (fill_area "erase" "#ffffff" none initGrid 0 0).1 :=
  ⟨by decide,
   C9_shape_preservation.1 "color" "#ff0000" none initGrid 2 3
     (by decide) (by decide) (by decide),
   C9_shape_preservation.2.1 "erase" "#ffffff" none initGrid 0 0
     (by decide) (by decide) (by decide)⟩

end PixelCanvas
